import Mathlib

/-!
Verification of the altea-book repository: a shallow embedding of its
scheduler (`scheduler.py`), calendar time parsing (`src/calendar.py`) and
browser client (`src/client.py`) logic, together with proofs of the spec's
claims about them.

Python strings are modelled as lists of characters (`Str`); each Python
string helper used by the source (strip, upper, lower, replace, split,
substring test, int parsing) is embedded as an executable Lean function.
-/

/-- Python strings, modelled as lists of characters. -/
abbrev Str := List Char

/-- The whitespace characters recognised by Python's `str.strip` that can
occur in this program's data (space, tab, newline, carriage return). -/
def isWs (c : Char) : Bool :=
  c = ' ' || c = '\t' || c = '\n' || c = '\r'

/-- Python `str.lstrip`: drop leading whitespace. -/
def lstrip (s : Str) : Str := s.dropWhile isWs

/-- Python `str.rstrip`: drop trailing whitespace. -/
def rstrip (s : Str) : Str := (s.reverse.dropWhile isWs).reverse

/-- Python `str.strip`: drop leading and trailing whitespace. -/
def pyStrip (s : Str) : Str := rstrip (lstrip s)

/-- Python `str.upper` (ASCII). -/
def pyUpper (s : Str) : Str := s.map Char.toUpper

/-- Python `str.lower` (ASCII). -/
def pyLower (s : Str) : Str := s.map Char.toLower

/-- Boolean prefix test on character lists. -/
def isPrefixB : Str → Str → Bool
  | [], _ => true
  | _ :: _, [] => false
  | a :: as, b :: bs => a = b && isPrefixB as bs

/-- Python's substring operator `needle in hay`, as a Boolean function. -/
def isInfixB : Str → Str → Bool
  | n, [] => n.isEmpty
  | n, c :: t => isPrefixB n (c :: t) || isInfixB n t

/-- Worker for `replaceStr`, structurally recursive on a fuel argument
that starts at the string's length (the string shrinks by at least one
character per step, so the fuel never runs out). -/
def replaceStrAux (pat rep : Str) : Nat → Str → Str
  | 0, s => s
  | _ + 1, [] => []
  | fuel + 1, c :: t =>
    if !pat.isEmpty && isPrefixB pat (c :: t) then
      rep ++ replaceStrAux pat rep fuel (t.drop (pat.length - 1))
    else
      c :: replaceStrAux pat rep fuel t

/-- Python `str.replace pat rep` (all occurrences, left to right); when
`pat` is empty the string is returned unchanged (the source never calls
`replace` with an empty pattern). -/
def replaceStr (pat rep s : Str) : Str := replaceStrAux pat rep s.length s

/-- Python `str.split sep` for a one-character separator: `"".split` gives
`[""]`, and every separator occurrence opens a new field. -/
def splitOnChar (sep : Char) : Str → List Str
  | [] => [[]]
  | c :: t =>
    if c = sep then [] :: splitOnChar sep t
    else
      match splitOnChar sep t with
      | [] => [[c]]
      | h :: r => (c :: h) :: r

/-- Decimal digit value of a character, if it is a digit. -/
def digitVal (c : Char) : Option Nat :=
  if '0' ≤ c && c ≤ '9' then some (c.toNat - '0'.toNat) else none

/-- Fold a digit string into a number; `none` on a non-digit. -/
def digitsToNat (acc : Nat) : Str → Option Nat
  | [] => some acc
  | c :: t =>
    match digitVal c with
    | some d => digitsToNat (acc * 10 + d) t
    | none => none

/-- Python `int(s)` for the non-negative decimal literals this program
feeds it (optionally surrounded by whitespace); `none` models the raised
`ValueError`. -/
def pyInt (s : Str) : Option Nat :=
  match pyStrip s with
  | [] => none
  | c :: t => digitsToNat 0 (c :: t)

/-! ## `scheduler.py`: `parse_time` and the trigger computations -/

/-- `scheduler.parse_time`: parse a 12-hour time string such as
`"3:30 PM"` into a 24-hour `(hour, minute)` pair; `none` models the
raised `ValueError` for strings without an AM/PM marker or with
unparseable numeric parts. -/
def parse_time (s : Str) : Option (Nat × Nat) :=
  let t := pyUpper (pyStrip s)
  if isInfixB "AM".toList t || isInfixB "PM".toList t then
    let time_part := pyStrip (replaceStr "PM".toList [] (replaceStr "AM".toList [] t))
    match splitOnChar ':' time_part with
    | [hs, ms] =>
      match pyInt hs, pyInt ms with
      | some hour, some minute =>
        let hour :=
          if isInfixB "PM".toList t && hour ≠ 12 then hour + 12
          else if isInfixB "AM".toList t && hour = 12 then 0
          else hour
        some (hour, minute)
      | _, _ => none
    | _ => none
  else none

/-- The two failure modes of `scheduler.calculate_booking_time`: the
`ValueError` raised by `parse_time` on a malformed string, and the
`ValueError` raised when the class starts before 1:00 AM. -/
inductive BookingTimeError where
  | invalidFormat : BookingTimeError
  | tooEarly : BookingTimeError
deriving DecidableEq, Repr

deriving instance DecidableEq for Except

/-- `scheduler.calculate_booking_time`: subtract one hour from the parsed
class time; fails with `tooEarly` when the resulting hour would be
negative (class in the 12 AM hour). -/
def calculate_booking_time (s : Str) : Except BookingTimeError (Nat × Nat) :=
  match parse_time s with
  | none => .error .invalidFormat
  | some (hour, minute) =>
    if (hour : Int) - 1 < 0 then .error .tooEarly
    else .ok (hour - 1, minute)

/-- `scheduler.day_to_cron_day`: the day-name table, Sunday=0..Saturday=6;
`none` models Python's `dict.get` returning `None` for unknown names. -/
def day_to_cron_day (day_name : Str) : Option Int :=
  if day_name = "Sunday".toList then some 0
  else if day_name = "Monday".toList then some 1
  else if day_name = "Tuesday".toList then some 2
  else if day_name = "Wednesday".toList then some 3
  else if day_name = "Thursday".toList then some 4
  else if day_name = "Friday".toList then some 5
  else if day_name = "Saturday".toList then some 6
  else none

/-- `scheduler.calculate_cron_day`: `(class_day_num - days_before) % 7`,
with Python's non-negative `%` (Lean's `Int.emod`). -/
def calculate_cron_day (class_day : Str) (days_before : Int) : Option Int :=
  (day_to_cron_day class_day).map (fun n => (n - days_before) % 7)

/-! ## `src/calendar.py`: `parse_class_time` -/

/-- `calendar.parse_class_time`: same 12-hour parsing as
`scheduler.parse_time`, with a 24-hour fallback when no AM/PM marker is
present (`parts[1]` defaulting to `0` when there is no colon). -/
def parse_class_time (s : Str) : Option (Nat × Nat) :=
  let t := pyUpper (pyStrip s)
  if isInfixB "AM".toList t || isInfixB "PM".toList t then
    let time_part := pyStrip (replaceStr "PM".toList [] (replaceStr "AM".toList [] t))
    match splitOnChar ':' time_part with
    | [hs, ms] =>
      match pyInt hs, pyInt ms with
      | some hour, some minute =>
        let hour :=
          if isInfixB "PM".toList t && hour ≠ 12 then hour + 12
          else if isInfixB "AM".toList t && hour = 12 then 0
          else hour
        some (hour, minute)
      | _, _ => none
    | _ => none
  else
    match splitOnChar ':' t with
    | [] => none
    | p0 :: rest =>
      match pyInt p0 with
      | none => none
      | some h =>
        match rest with
        | [] => some (h, 0)
        | p1 :: _ =>
          match pyInt p1 with
          | none => none
          | some m => some (h, m)

/-! ## Canonical 12-hour time rendering, for stating the parsing claims -/

/-- A 12-hour meridiem marker. -/
inductive Meridiem where
  | am : Meridiem
  | pm : Meridiem
deriving DecidableEq, Repr

/-- The decimal digit character for `n < 10`. -/
def digitChar (n : Nat) : Char := Char.ofNat ('0'.toNat + n)

/-- Two-digit decimal rendering of `n < 100`. -/
def renderNat2 (n : Nat) : Str := [digitChar (n / 10), digitChar (n % 10)]

/-- Hour rendering without a leading zero, as in `"3:30 PM"`. -/
def renderHour (h : Nat) : Str :=
  if h < 10 then [digitChar h] else renderNat2 h

/-- A canonical valid 12-hour time string, e.g. `renderTime 3 30 .pm`
is `"3:30 PM"`. -/
def renderTime (h m : Nat) (mer : Meridiem) : Str :=
  renderHour h ++ ':' :: renderNat2 m ++ ' ' ::
    (match mer with
     | .am => "AM".toList
     | .pm => "PM".toList)

/-- The 24-hour hour a 12-hour clock reading denotes: hour 12 maps to 0
for AM and stays 12 for PM; any other PM hour is increased by 12. -/
def to24Hour (h : Nat) (mer : Meridiem) : Nat :=
  match mer with
  | .pm => if h ≠ 12 then h + 12 else 12
  | .am => if h = 12 then 0 else h

/-! ## `src/client.py`: schedule entries, `find_class`, the scrape loop
and `book_class` -/

/-- `client.get_schedule`'s per-class dictionary: title, displayed time,
optional spots-left count, fullness, bookability and the detail URL. -/
structure ScheduleEntry where
  title : Str
  time : Str
  spots_left : Option Nat
  is_full : Bool
  can_book : Bool
  url : Str
deriving DecidableEq, Repr

/-- The body of `find_class`'s loop over the schedule: the accumulated
matches are exactly the entries appended in schedule order.
`search_time` is the pre-normalised query time. -/
def findClassLoop (search_time np : Str) : List ScheduleEntry → List ScheduleEntry
  | [] => []
  | e :: rest =>
    if isInfixB (pyLower np) (pyLower e.title) then
      if e.time ≠ [] then
        if pyUpper (pyStrip e.time) = search_time then
          e :: findClassLoop search_time np rest
        else if isInfixB search_time (pyUpper (pyStrip e.time)) ||
            isInfixB (pyUpper (pyStrip e.time)) search_time then
          e :: findClassLoop search_time np rest
        else findClassLoop search_time np rest
      else findClassLoop search_time np rest
    else findClassLoop search_time np rest

/-- `client.find_class`: all entries whose title contains the query name
case-insensitively and whose (non-empty) time matches the query time
exactly or by bidirectional substring containment after normalisation. -/
def find_class (schedule : List ScheduleEntry) ( class_name_partial time_str : Str) :
    List ScheduleEntry :=
  findClassLoop (pyUpper (pyStrip time_str)) class_name_partial schedule

/-- The time-match rule exactly as the spec words it (claim C1): trim and
uppercase both strings; accept on equality or when either contains the
other as a substring. -/
def specTimeMatch (time_query entry_time : Str) : Bool :=
  let a := pyUpper (pyStrip entry_time)
  let b := pyUpper (pyStrip time_query)
  decide (a = b) || isInfixB b a || isInfixB a b

/-- The full match predicate exactly as claim C1 words it: case-insensitive
substring name match and the `specTimeMatch` time rule — with no
requirement that the entry's time be non-empty. -/
def specClaimMatch (e : ScheduleEntry) (name_query time_query : Str) : Bool :=
  isInfixB (pyLower name_query) (pyLower e.title) && specTimeMatch time_query e.time

/-- The match predicate the code actually implements: claim C1's rule
restricted to entries whose raw time field is non-empty. -/
def specAmendedMatch (e : ScheduleEntry) (name_query time_query : Str) : Bool :=
  specClaimMatch e name_query time_query && !e.time.isEmpty

/-- The fields `get_schedule` extracts from one rendered card, before the
URL is attached. -/
structure ParsedFields where
  title : Str
  time : Str
  spots_left : Option Nat
  is_full : Bool
deriving DecidableEq, Repr

/-- Attach a detail URL to parsed fields, as `get_schedule` builds its
`class_info` dictionary (`can_book = not is_full`). -/
def mkEntry (url : Str) (f : ParsedFields) : ScheduleEntry :=
  { title := f.title, time := f.time, spots_left := f.spots_left,
    is_full := f.is_full, can_book := !f.is_full, url := url }

/-- One anchor element rendered in a scroll snapshot: its href, and the
fields its card parses to — `none` models the per-entry parse exception
(raised after the href is recorded as seen). -/
structure RenderedLink where
  url : Str
  fields : Option ParsedFields
deriving DecidableEq, Repr

/-- The inner `for link in class_links` loop of `get_schedule`: skip seen
URLs, mark the URL seen, then either append the parsed entry or (on a
parse error) skip the card. -/
def processLinks : List ScheduleEntry → List Str → List RenderedLink →
    List ScheduleEntry × List Str
  | classes, seen, [] => (classes, seen)
  | classes, seen, link :: rest =>
    if link.url ∈ seen then processLinks classes seen rest
    else
      match link.fields with
      | some f => processLinks (classes ++ [mkEntry link.url f]) (link.url :: seen) rest
      | none => processLinks classes (link.url :: seen) rest

/-- The outer scroll loop of `get_schedule`: fold the inner loop over the
successive scroll snapshots, threading the accumulated classes and the
seen-URL set. -/
def scrollLoop : List ScheduleEntry → List Str → List (List RenderedLink) →
    List ScheduleEntry
  | classes, _, [] => classes
  | classes, seen, snap :: rest =>
    let cs := processLinks classes seen snap
    scrollLoop cs.1 cs.2 rest

/-- `client.get_schedule` over a date's page, abstracted to the sequence
of scroll snapshots the loop processes; a scrape-level exception
(`navRaises`) is caught and yields the empty list. -/
def get_schedule (navRaises : Bool) (snaps : List (List RenderedLink)) :
    List ScheduleEntry :=
  if navRaises then [] else scrollLoop [] [] snaps

/-- The page behaviour `book_class` can encounter: whether navigation
raises, whether each locator finds its control (`count() > 0`), and
whether each click raises. -/
structure BookPage where
  gotoRaises : Bool
  xpathBookFound : Bool
  xpathClickRaises : Bool
  confirmFound : Bool
  confirmClickRaises : Bool
  textBookFound : Bool
  textClickRaises : Bool
deriving DecidableEq, Repr

/-- `client.book_class`: structural-XPath book button first, text-label
fallback second, then the structural confirm button; every exception is
caught and every failure path returns `false`. -/
def book_class (p : BookPage) : Bool :=
  if p.gotoRaises then false
  else if p.xpathBookFound then
    if p.xpathClickRaises then false
    else if p.confirmFound then
      if p.confirmClickRaises then false else true
    else false
  else if p.textBookFound then
    if p.textClickRaises then false
    else if p.confirmFound then
      if p.confirmClickRaises then false else true
    else false
  else false

/-- Claim C8's first condition, as the spec words it: the book control was
found (structural selector, else the text fallback) and its click
succeeded, after a successful navigation. -/
def specBookControlActivated (p : BookPage) : Bool :=
  !p.gotoRaises &&
    (if p.xpathBookFound then !p.xpathClickRaises
     else p.textBookFound && !p.textClickRaises)

/-- Claim C8's second condition: the confirm control (structural selector
only) was found and its click succeeded. -/
def specConfirmControlActivated (p : BookPage) : Bool :=
  p.confirmFound && !p.confirmClickRaises

/-! ## `scheduler.merge_crontabs` -/

/-- The line separator. -/
def NL : Char := '\n'

/-- The sentinel line opening the Altea booking block. -/
def markerStart : Str := "# BEGIN ALTEA BOOKING".toList

/-- The sentinel line closing the Altea booking block. -/
def markerEnd : Str := "# END ALTEA BOOKING".toList

/-- Python `text.split('\n')`. -/
def splitLines (s : Str) : List Str := splitOnChar NL s

/-- Python `'\n'.join(lines)`. -/
def joinLines : List Str → Str
  | [] => []
  | [l] => l
  | l :: l2 :: ls => l ++ NL :: joinLines (l2 :: ls)

/-- The index loops of `merge_crontabs`: the index of the last line that
contains `m` as a substring (the Python loop overwrites the index on
every hit). -/
def lastContaining (m : Str) : List Str → Option Nat
  | [] => none
  | l :: ls =>
    match lastContaining m ls with
    | some i => some (i + 1)
    | none => if isInfixB m l then some 0 else none

/-- `scheduler.merge_crontabs`: split the stripped existing text into
lines, delete the last-marker-delimited slice when both sentinels occur,
append a separating blank line when the last remaining line is non-blank,
then append the sentinel-wrapped stripped new block and re-join with a
trailing newline. -/
def merge_crontabs (existing new : Str) : Str :=
  let lines0 := if pyStrip existing = [] then [] else splitLines (pyStrip existing)
  let lines1 :=
    match lastContaining markerStart lines0, lastContaining markerEnd lines0 with
    | some i, some j => lines0.take i ++ lines0.drop (max i (j + 1))
    | _, _ => lines0
  let lines2 :=
    match lines1.getLast? with
    | some l => if pyStrip l ≠ [] then lines1 ++ [[]] else lines1
    | none => lines1
  let lines3 := lines2 ++ [markerStart, pyStrip new, markerEnd]
  joinLines lines3 ++ [NL]

/-! ## Helper lemmas -/

/-- `day_to_cron_day` only ever returns an index in `0..6`. -/
theorem day_to_cron_day_bounds {name : Str} {idx : Int}
    (h : day_to_cron_day name = some idx) : 0 ≤ idx ∧ idx < 7 := by
  unfold day_to_cron_day at h
  split_ifs at h <;> simp_all <;> omega

/-- Every entry `findClassLoop` keeps has a non-empty raw time field. -/
theorem findClassLoop_time_ne {st np : Str} :
    ∀ {l : List ScheduleEntry} {e : ScheduleEntry},
      e ∈ findClassLoop st np l → e.time ≠ [] := by
  intro l
  induction l with
  | nil => intro e he; simp [findClassLoop] at he
  | cons a t ih =>
    intro e he
    unfold findClassLoop at he
    split_ifs at he with h1 h2 <;>
      first
        | exact ih he
        | (rcases List.mem_cons.mp he with rfl | hmem
           · exact h2
           · exact ih hmem)

/-! ## Claim theorems -/

/-- Claim C5: for every valid day name and every lead `days_before`,
`calculate_cron_day` returns `(class_day_index - days_before) mod 7`
(Sunday=0..Saturday=6), and with `days_before = 7` it returns the class's
own day-of-week index. -/
theorem calculate_cron_day_mod :
    ∀ (name : Str) (idx days_before : Int),
      day_to_cron_day name = some idx →
      calculate_cron_day name days_before = some ((idx - days_before) % 7) ∧
      calculate_cron_day name 7 = some idx := by
  intro name idx d h
  obtain ⟨h0, h7⟩ := day_to_cron_day_bounds h
  refine ⟨by simp [calculate_cron_day, h], ?_⟩
  unfold calculate_cron_day
  rw [h, Option.map_some']
  have : (idx - 7) % 7 = idx := by omega
  rw [this]

/-- Witness for C5 at the class day "Monday" with a 7-day lead. -/
theorem calculate_cron_day_mod_witness :
    day_to_cron_day ("Monday".toList) = some 1 ∧
    calculate_cron_day ("Monday".toList) 7 = some 1 :=
  ⟨by decide, (calculate_cron_day_mod ("Monday".toList) 1 7 (by decide)).2⟩

/-- Claim C8: `book_class` reports success exactly when the book control
(structural XPath selector, else the "Book Now"/"Book" text fallback) and
the confirm control (structural selector only) were both found and
clicked; every missing-control and exception path yields `false` (the
model is a total function: no exception escapes). -/
theorem book_class_success_iff :
    ∀ g xb xc cf cc tb tc : Bool,
      book_class ⟨g, xb, xc, cf, cc, tb, tc⟩ =
        (specBookControlActivated ⟨g, xb, xc, cf, cc, tb, tc⟩ &&
         specConfirmControlActivated ⟨g, xb, xc, cf, cc, tb, tc⟩) := by
  decide

/-- Claim C10: `find_class` never returns an entry whose raw time field
is the empty string, whatever the schedule and queries are. -/
theorem find_class_time_nonempty :
    ∀ (schedule : List ScheduleEntry) (nq tq : Str) (e : ScheduleEntry),
      e ∈ find_class schedule nq tq → e.time ≠ [] := by
  intro s nq tq e he
  exact findClassLoop_time_ne he

/-- Witness for C10: a matched entry, whose time is indeed non-empty. -/
theorem find_class_time_nonempty_witness :
    (⟨"LF3 Strong Conditioning".toList, "8:30 AM".toList, some 3, false, true,
      "/booking/evt_1".toList⟩ : ScheduleEntry).time ≠ [] :=
  find_class_time_nonempty
    [⟨"LF3 Strong Conditioning".toList, "8:30 AM".toList, some 3, false, true,
      "/booking/evt_1".toList⟩]
    ("LF3".toList) ("8:30".toList) _ (by decide)

/-- Claim C3: for every valid 12-hour time string (canonically rendered
with hour 1..12 and minute 0..59), `parse_time` — and `parse_class_time`
from the calendar module — return the 24-hour pair: "12:00 AM" gives
(0,0), "12:30 PM" gives (12,30), "11:59 PM" gives (23,59); hour 12 maps
to 0 for AM and stays 12 for PM, and any other PM hour gains 12. -/
theorem parse_time_twelve_hour :
    parse_time ("12:00 AM".toList) = some (0, 0) ∧
    parse_time ("12:30 PM".toList) = some (12, 30) ∧
    parse_time ("11:59 PM".toList) = some (23, 59) ∧
    ∀ h, h < 12 → ∀ m, m < 60 →
      parse_time (renderTime (h + 1) m .am) = some (to24Hour (h + 1) .am, m) ∧
      parse_time (renderTime (h + 1) m .pm) = some (to24Hour (h + 1) .pm, m) ∧
      parse_class_time (renderTime (h + 1) m .am) = some (to24Hour (h + 1) .am, m) ∧
      parse_class_time (renderTime (h + 1) m .pm) = some (to24Hour (h + 1) .pm, m) := by
  decide

/-- Witness for C3 at "11:59 PM". -/
theorem parse_time_twelve_hour_witness :
    parse_time (renderTime (10 + 1) 59 Meridiem.pm) = some (23, 59) :=
  (parse_time_twelve_hour.2.2.2 10 (by decide) 59 (by decide)).2.1

/-- Claim C4: `calculate_booking_time` fails (with the unsupported-lead
error) exactly for class times in the 12 AM hour, and for every other
valid time returns the parsed 24-hour time minus one hour. -/
theorem calculate_booking_time_lead :
    calculate_booking_time ("12:30 AM".toList) = .error .tooEarly ∧
    ∀ h, h < 12 → ∀ m, m < 60 →
      (calculate_booking_time (renderTime (h + 1) m .am) =
        if h + 1 = 12 then .error .tooEarly
        else .ok (to24Hour (h + 1) .am - 1, m)) ∧
      calculate_booking_time (renderTime (h + 1) m .pm) =
        .ok (to24Hour (h + 1) .pm - 1, m) := by
  decide

/-- Witness for C4: fails at "12:30 AM", succeeds at "4:30 PM". -/
theorem calculate_booking_time_lead_witness :
    calculate_booking_time (renderTime (11 + 1) 30 Meridiem.am) =
      Except.error BookingTimeError.tooEarly ∧
    calculate_booking_time (renderTime (3 + 1) 30 Meridiem.pm) =
      Except.ok (15, 30) :=
  ⟨(calculate_booking_time_lead.2 11 (by decide) 30 (by decide)).1,
   (calculate_booking_time_lead.2 3 (by decide) 30 (by decide)).2⟩

/-- `findClassLoop` computes exactly a filter by the amended C1 match
predicate (claim C1's rule plus the code's non-empty-time requirement). -/
theorem findClassLoop_eq_filter (np tq : Str) :
    ∀ l : List ScheduleEntry,
      findClassLoop (pyUpper (pyStrip tq)) np l =
        l.filter (fun e => specAmendedMatch e np tq) := by
  intro l
  induction l with
  | nil => rfl
  | cons a t ih =>
    unfold findClassLoop
    rw [List.filter_cons]
    by_cases h1 : isInfixB (pyLower np) (pyLower a.title) = true <;>
    by_cases h2 : a.time = [] <;>
    by_cases h3 : pyUpper (pyStrip a.time) = pyUpper (pyStrip tq) <;>
    by_cases h4 : (isInfixB (pyUpper (pyStrip tq)) (pyUpper (pyStrip a.time)) ||
        isInfixB (pyUpper (pyStrip a.time)) (pyUpper (pyStrip tq))) = true <;>
    simp [specAmendedMatch, specClaimMatch, specTimeMatch, h1, h2, h3, h4, ih]

/-- Claim C1 (amended): `find_class` returns exactly the entries matching
the spec's name and time rules *and* carrying a non-empty raw time field;
in particular query name "lf3" with time "8:30" matches a stored
"LF3 Strong Conditioning" at "8:30 AM", and query time "8:30 AM" does not
match a stored "8:30 PM". -/
theorem find_class_eq_filter :
    (∀ (schedule : List ScheduleEntry) (name_query time_query : Str),
        find_class schedule name_query time_query =
          schedule.filter (fun e => specAmendedMatch e name_query time_query)) ∧
    find_class
        [⟨"LF3 Strong Conditioning".toList, "8:30 AM".toList, some 3, false, true,
          "/booking/evt_1".toList⟩]
        ("lf3".toList) ("8:30".toList) =
      [⟨"LF3 Strong Conditioning".toList, "8:30 AM".toList, some 3, false, true,
        "/booking/evt_1".toList⟩] ∧
    find_class
        [⟨"LF3 Strong Conditioning".toList, "8:30 PM".toList, some 3, false, true,
          "/booking/evt_1".toList⟩]
        ("LF3".toList) ("8:30 AM".toList) = [] := by
  refine ⟨?_, by decide, by decide⟩
  intro s nq tq
  exact findClassLoop_eq_filter nq tq s

/-- Counterexample to claim C1 as stated: an entry whose title matches
the name query and whose (empty) time satisfies the claim's bidirectional
substring time rule is nonetheless not returned by `find_class` — the
code also requires the raw time field to be non-empty. -/
theorem find_class_claim_counterexample :
    specClaimMatch ⟨"LF3 Strong".toList, [], none, false, true, "u".toList⟩
        ("LF3".toList) ("8:30".toList) = true ∧
    find_class [⟨"LF3 Strong".toList, [], none, false, true, "u".toList⟩]
        ("LF3".toList) ("8:30".toList) = [] := by
  decide

/-! ## Lemmas about the scrape loop -/

/-- The seen-URL set only grows under `processLinks`. -/
theorem processLinks_seen_mono :
    ∀ (links : List RenderedLink) (classes : List ScheduleEntry) (seen : List Str)
      (u : Str), u ∈ seen → u ∈ (processLinks classes seen links).2 := by
  intro links
  induction links with
  | nil => intro classes seen u hu; simpa [processLinks] using hu
  | cons a t ih =>
    intro classes seen u hu
    simp only [processLinks]
    split
    · exact ih _ _ _ hu
    · split
      · exact ih _ _ _ (List.mem_cons_of_mem _ hu)
      · exact ih _ _ _ (List.mem_cons_of_mem _ hu)

/-- Every processed link's URL ends up in the seen set. -/
theorem processLinks_mem_seen :
    ∀ (links : List RenderedLink) (classes : List ScheduleEntry) (seen : List Str)
      (l : RenderedLink), l ∈ links → l.url ∈ (processLinks classes seen links).2 := by
  intro links
  induction links with
  | nil => intro classes seen l hl; simp at hl
  | cons a t ih =>
    intro classes seen l hl
    rcases List.mem_cons.mp hl with rfl | hmem
    · simp only [processLinks]
      split
      · exact processLinks_seen_mono t classes seen l.url (by assumption)
      · split
        · exact processLinks_seen_mono t _ _ l.url (List.mem_cons_self _ _)
        · exact processLinks_seen_mono t _ _ l.url (List.mem_cons_self _ _)
    · simp only [processLinks]
      split
      · exact ih _ _ _ hmem
      · split
        · exact ih _ _ _ hmem
        · exact ih _ _ _ hmem

/-- `processLinks` only appends entries to the accumulated classes. -/
theorem processLinks_classes_append :
    ∀ (links : List RenderedLink) (classes : List ScheduleEntry) (seen : List Str),
      ∃ ext, (processLinks classes seen links).1 = classes ++ ext := by
  intro links
  induction links with
  | nil => intro classes seen; exact ⟨[], by simp [processLinks]⟩
  | cons a t ih =>
    intro classes seen
    simp only [processLinks]
    split
    · exact ih _ _
    · split
      · rename_i f heq
        obtain ⟨ext, hext⟩ := ih (classes ++ [mkEntry a.url f]) (a.url :: seen)
        exact ⟨[mkEntry a.url f] ++ ext, by rw [hext, List.append_assoc]⟩
      · exact ih _ _

/-- Accumulated entries survive `processLinks`. -/
theorem processLinks_classes_mono
    {links : List RenderedLink} {classes : List ScheduleEntry} {seen : List Str}
    {e : ScheduleEntry} (he : e ∈ classes) :
    e ∈ (processLinks classes seen links).1 := by
  obtain ⟨ext, hext⟩ := processLinks_classes_append links classes seen
  rw [hext]
  exact List.mem_append_left _ he

/-- Dedup invariant of the inner loop: if the accumulated URLs are
distinct and all recorded as seen, the same holds afterwards. -/
theorem processLinks_nodup :
    ∀ (links : List RenderedLink) (classes : List ScheduleEntry) (seen : List Str),
      (∀ u ∈ classes.map ScheduleEntry.url, u ∈ seen) →
      (classes.map ScheduleEntry.url).Nodup →
      ((processLinks classes seen links).1.map ScheduleEntry.url).Nodup ∧
      (∀ u ∈ (processLinks classes seen links).1.map ScheduleEntry.url,
        u ∈ (processLinks classes seen links).2) := by
  intro links
  induction links with
  | nil => intro classes seen hsub hnd; simp only [processLinks]; exact ⟨hnd, hsub⟩
  | cons a t ih =>
    intro classes seen hsub hnd
    simp only [processLinks]
    split
    · exact ih _ _ hsub hnd
    · rename_i hnotin
      split
      · refine ih _ _ ?_ ?_
        · intro u hu
          rw [List.map_append] at hu
          rcases List.mem_append.mp hu with hu | hu
          · exact List.mem_cons_of_mem _ (hsub u hu)
          · simp only [List.map_cons, List.map_nil, List.mem_singleton] at hu
            simp [hu, mkEntry]
        · rw [List.map_append]
          refine List.Nodup.append hnd (by simp) ?_
          intro u hu hu'
          simp only [List.map_cons, List.map_nil, List.mem_singleton] at hu'
          subst hu'
          exact hnotin (hsub _ hu)
      · refine ih _ _ ?_ hnd
        intro u hu
        exact List.mem_cons_of_mem _ (hsub u hu)

/-- Completeness invariant of the inner loop: when every link parses,
every seen URL has a corresponding accumulated entry. -/
theorem processLinks_complete :
    ∀ (links : List RenderedLink) (classes : List ScheduleEntry) (seen : List Str),
      (∀ l ∈ links, l.fields.isSome) →
      (∀ u ∈ seen, u ∈ classes.map ScheduleEntry.url) →
      ∀ u ∈ (processLinks classes seen links).2,
        u ∈ (processLinks classes seen links).1.map ScheduleEntry.url := by
  intro links
  induction links with
  | nil => intro classes seen _ hinv u hu; simp only [processLinks] at hu ⊢; exact hinv u hu
  | cons a t ih =>
    intro classes seen hparse hinv
    simp only [processLinks]
    split
    · exact ih _ _ (fun l hl => hparse l (List.mem_cons_of_mem _ hl)) hinv
    · split
      · refine ih _ _ (fun l hl => hparse l (List.mem_cons_of_mem _ hl)) ?_
        intro u hu
        rcases List.mem_cons.mp hu with rfl | hu
        · simp [mkEntry]
        · rw [List.map_append]
          exact List.mem_append_left _ (hinv u hu)
      · rename_i hnone
        have := hparse a (List.mem_cons_self _ _)
        rw [hnone] at this
        simp at this

/-- Accumulated entries survive the whole scroll loop. -/
theorem scrollLoop_classes_mono :
    ∀ (snaps : List (List RenderedLink)) (classes : List ScheduleEntry)
      (seen : List Str) (e : ScheduleEntry),
      e ∈ classes → e ∈ scrollLoop classes seen snaps := by
  intro snaps
  induction snaps with
  | nil => intro classes seen e he; simpa [scrollLoop] using he
  | cons snap rest ih =>
    intro classes seen e he
    simp only [scrollLoop]
    exact ih _ _ _ (processLinks_classes_mono he)

/-- Dedup invariant of the scroll loop. -/
theorem scrollLoop_nodup :
    ∀ (snaps : List (List RenderedLink)) (classes : List ScheduleEntry)
      (seen : List Str),
      (∀ u ∈ classes.map ScheduleEntry.url, u ∈ seen) →
      (classes.map ScheduleEntry.url).Nodup →
      ((scrollLoop classes seen snaps).map ScheduleEntry.url).Nodup := by
  intro snaps
  induction snaps with
  | nil => intro classes seen _ hnd; simpa [scrollLoop] using hnd
  | cons snap rest ih =>
    intro classes seen hsub hnd
    simp only [scrollLoop]
    obtain ⟨hnd2, hsub2⟩ := processLinks_nodup snap classes seen hsub hnd
    exact ih _ _ hsub2 hnd2

/-- Completeness of the scroll loop: when every link of every snapshot
parses, every URL recorded as seen — in particular every rendered URL —
appears among the result's URLs. -/
theorem scrollLoop_complete :
    ∀ (snaps : List (List RenderedLink)) (classes : List ScheduleEntry)
      (seen : List Str),
      (∀ snap ∈ snaps, ∀ l ∈ snap, l.fields.isSome) →
      (∀ u ∈ seen, u ∈ classes.map ScheduleEntry.url) →
      (∀ u ∈ seen, u ∈ (scrollLoop classes seen snaps).map ScheduleEntry.url) ∧
      (∀ snap ∈ snaps, ∀ l ∈ snap,
        l.url ∈ (scrollLoop classes seen snaps).map ScheduleEntry.url) := by
  intro snaps
  induction snaps with
  | nil =>
    intro classes seen _ hinv
    refine ⟨fun u hu => ?_, by simp⟩
    simpa [scrollLoop] using hinv u hu
  | cons snap rest ih =>
    intro classes seen hparse hinv
    have hparseSnap : ∀ l ∈ snap, l.fields.isSome :=
      hparse snap (List.mem_cons_self _ _)
    have hparseRest : ∀ s ∈ rest, ∀ l ∈ s, l.fields.isSome :=
      fun s hs => hparse s (List.mem_cons_of_mem _ hs)
    have hinv2 := processLinks_complete snap classes seen hparseSnap hinv
    obtain ⟨hseen, hsnap⟩ := ih (processLinks classes seen snap).1
      (processLinks classes seen snap).2 hparseRest hinv2
    refine ⟨?_, ?_⟩
    · intro u hu
      simp only [scrollLoop]
      exact hseen u (processLinks_seen_mono snap classes seen u hu)
    · intro s hs l hl
      rcases List.mem_cons.mp hs with rfl | hmem
      · simp only [scrollLoop]
        exact hseen l.url (processLinks_mem_seen s classes seen l hl)
      · simp only [scrollLoop]
        exact hsnap s hmem l hl

/-- Claim C2: over any sequence of scroll snapshots, the accumulated
result of the scrape loop is deduplicated by URL; when every rendered
card parses, every URL that appeared in a processed snapshot is present;
and the simulated sequence {A,B} then {C,D,B} accumulates exactly
A, B, C, D once each. -/
theorem get_schedule_dedup_complete :
    (∀ snaps, ((get_schedule false snaps).map ScheduleEntry.url).Nodup) ∧
    (∀ snaps, (∀ snap ∈ snaps, ∀ l ∈ snap, l.fields.isSome) →
      ∀ snap ∈ snaps, ∀ l ∈ snap,
        l.url ∈ (get_schedule false snaps).map ScheduleEntry.url) ∧
    get_schedule false
        [[⟨"a".toList, some ⟨"A".toList, "1:00 PM".toList, some 1, false⟩⟩,
          ⟨"b".toList, some ⟨"B".toList, "2:00 PM".toList, none, true⟩⟩],
         [⟨"c".toList, some ⟨"C".toList, "3:00 PM".toList, some 2, false⟩⟩,
          ⟨"d".toList, some ⟨"D".toList, "4:00 PM".toList, none, false⟩⟩,
          ⟨"b".toList, some ⟨"B".toList, "2:00 PM".toList, none, true⟩⟩]] =
      [mkEntry ("a".toList) ⟨"A".toList, "1:00 PM".toList, some 1, false⟩,
       mkEntry ("b".toList) ⟨"B".toList, "2:00 PM".toList, none, true⟩,
       mkEntry ("c".toList) ⟨"C".toList, "3:00 PM".toList, some 2, false⟩,
       mkEntry ("d".toList) ⟨"D".toList, "4:00 PM".toList, none, false⟩] := by
  refine ⟨?_, ?_, by decide⟩
  · intro snaps
    exact scrollLoop_nodup snaps [] [] (by simp) (by simp)
  · intro snaps hparse
    exact (scrollLoop_complete snaps [] [] hparse (by simp)).2

/-- Witness for C2's completeness part on a one-snapshot page. -/
theorem get_schedule_dedup_complete_witness :
    ("a".toList : Str) ∈
      (get_schedule false
        [[⟨"a".toList, some ⟨"A".toList, "1:00 PM".toList, some 1, false⟩⟩]]).map
        ScheduleEntry.url :=
  get_schedule_dedup_complete.2.1
    [[⟨"a".toList, some ⟨"A".toList, "1:00 PM".toList, some 1, false⟩⟩]]
    (by decide)
    [⟨"a".toList, some ⟨"A".toList, "1:00 PM".toList, some 1, false⟩⟩]
    (by decide)
    ⟨"a".toList, some ⟨"A".toList, "1:00 PM".toList, some 1, false⟩⟩
    (by decide)

/-- `processLinks` only consults the seen set through membership: two
membership-equivalent seen sets give equal classes and
membership-equivalent seen results. -/
theorem processLinks_congr :
    ∀ (links : List RenderedLink) (classes : List ScheduleEntry)
      (s1 s2 : List Str), (∀ v, v ∈ s1 ↔ v ∈ s2) →
      (processLinks classes s1 links).1 = (processLinks classes s2 links).1 ∧
      ∀ v, v ∈ (processLinks classes s1 links).2 ↔
        v ∈ (processLinks classes s2 links).2 := by
  intro links
  induction links with
  | nil => intro classes s1 s2 h; simpa [processLinks] using h
  | cons a t ih =>
    intro classes s1 s2 h
    by_cases hmem : a.url ∈ s1
    · have hmem2 : a.url ∈ s2 := (h _).mp hmem
      simp only [processLinks, if_pos hmem, if_pos hmem2]
      exact ih _ _ _ h
    · have hmem2 : a.url ∉ s2 := fun hc => hmem ((h _).mpr hc)
      simp only [processLinks, if_neg hmem, if_neg hmem2]
      have h2 : ∀ v, v ∈ a.url :: s1 ↔ v ∈ a.url :: s2 := by
        intro v
        simp only [List.mem_cons]
        exact or_congr Iff.rfl (h v)
      cases a.fields with
      | some f => exact ih _ _ _ h2
      | none => exact ih _ _ _ h2

/-- The scroll loop gives equal results on membership-equivalent seen
sets. -/
theorem scrollLoop_congr :
    ∀ (snaps : List (List RenderedLink)) (classes : List ScheduleEntry)
      (s1 s2 : List Str), (∀ v, v ∈ s1 ↔ v ∈ s2) →
      scrollLoop classes s1 snaps = scrollLoop classes s2 snaps := by
  intro snaps
  induction snaps with
  | nil => intro classes s1 s2 _; rfl
  | cons snap rest ih =>
    intro classes s1 s2 h
    obtain ⟨hc, hs⟩ := processLinks_congr snap classes s1 s2 h
    simp only [scrollLoop]
    rw [hc]
    exact ih _ _ _ hs

/-- Pre-seeding a URL that no processed link carries changes neither the
classes nor (apart from that URL itself) the seen set. -/
theorem processLinks_seen_cons :
    ∀ (links : List RenderedLink) (classes : List ScheduleEntry)
      (seen : List Str) (u : Str), (∀ l ∈ links, l.url ≠ u) →
      (processLinks classes (u :: seen) links).1 =
        (processLinks classes seen links).1 ∧
      ∀ v, v ∈ (processLinks classes (u :: seen) links).2 ↔
        v = u ∨ v ∈ (processLinks classes seen links).2 := by
  intro links
  induction links with
  | nil => intro classes seen u _; simp [processLinks]
  | cons a t ih =>
    intro classes seen u hne
    have hau : a.url ≠ u := hne a (List.mem_cons_self _ _)
    have hnet : ∀ l ∈ t, l.url ≠ u := fun l hl => hne l (List.mem_cons_of_mem _ hl)
    by_cases hmem : a.url ∈ seen
    · have hmem1 : a.url ∈ u :: seen := List.mem_cons_of_mem _ hmem
      simp only [processLinks, if_pos hmem, if_pos hmem1]
      exact ih _ _ _ hnet
    · have hmem1 : a.url ∉ u :: seen := by
        simp only [List.mem_cons]
        rintro (hc | hc)
        · exact hau hc
        · exact hmem hc
      simp only [processLinks, if_neg hmem, if_neg hmem1]
      have hswap : ∀ v, v ∈ a.url :: u :: seen ↔ v ∈ u :: a.url :: seen := by
        intro v
        simp only [List.mem_cons]
        tauto
      cases a.fields with
      | some f =>
        obtain ⟨hc1, hs1⟩ :=
          processLinks_congr t (classes ++ [mkEntry a.url f])
            (a.url :: u :: seen) (u :: a.url :: seen) hswap
        obtain ⟨hc2, hs2⟩ := ih (classes ++ [mkEntry a.url f]) (a.url :: seen) u hnet
        refine ⟨hc1.trans hc2, fun v => ?_⟩
        rw [hs1 v, hs2 v]
      | none =>
        obtain ⟨hc1, hs1⟩ :=
          processLinks_congr t classes (a.url :: u :: seen) (u :: a.url :: seen) hswap
        obtain ⟨hc2, hs2⟩ := ih classes (a.url :: seen) u hnet
        refine ⟨hc1.trans hc2, fun v => ?_⟩
        rw [hs1 v, hs2 v]

/-- Pre-seeding a URL no later snapshot carries does not change the
scroll loop's result. -/
theorem scrollLoop_seen_cons :
    ∀ (snaps : List (List RenderedLink)) (classes : List ScheduleEntry)
      (seen : List Str) (u : Str),
      (∀ snap ∈ snaps, ∀ l ∈ snap, l.url ≠ u) →
      scrollLoop classes (u :: seen) snaps = scrollLoop classes seen snaps := by
  intro snaps
  induction snaps with
  | nil => intro classes seen u _; rfl
  | cons snap rest ih =>
    intro classes seen u hne
    obtain ⟨hc, hs⟩ :=
      processLinks_seen_cons snap classes seen u (hne snap (List.mem_cons_self _ _))
    simp only [scrollLoop]
    rw [hc]
    have hequiv : ∀ v, v ∈ (processLinks classes (u :: seen) snap).2 ↔
        v ∈ u :: (processLinks classes seen snap).2 := by
      intro v
      rw [hs v, List.mem_cons]
    rw [scrollLoop_congr rest (processLinks classes seen snap).1
      (processLinks classes (u :: seen) snap).2
      (u :: (processLinks classes seen snap).2) hequiv]
    exact ih (processLinks classes seen snap).1 (processLinks classes seen snap).2 u
      (fun s hs2 => hne s (List.mem_cons_of_mem _ hs2))

/-- Removing a failing card (whose URL no later link of the snapshot
carries) from a snapshot leaves the classes unchanged; the seen set
changes only by that URL. -/
theorem processLinks_skip_none :
    ∀ (pre post : List RenderedLink) (classes : List ScheduleEntry)
      (seen : List Str) (bad : RenderedLink),
      bad.fields = none → (∀ l ∈ post, l.url ≠ bad.url) →
      (processLinks classes seen (pre ++ bad :: post)).1 =
        (processLinks classes seen (pre ++ post)).1 ∧
      ∀ v, v ∈ (processLinks classes seen (pre ++ bad :: post)).2 ↔
        v = bad.url ∨ v ∈ (processLinks classes seen (pre ++ post)).2 := by
  intro pre
  induction pre with
  | nil =>
    intro post classes seen bad hbad hpost
    simp only [List.nil_append]
    by_cases hmem : bad.url ∈ seen
    · simp only [processLinks, if_pos hmem, hbad]
      refine ⟨trivial, fun v => ⟨fun h => Or.inr h, fun h => ?_⟩⟩
      rcases h with rfl | h
      · exact processLinks_seen_mono post classes seen _ hmem
      · exact h
    · simp only [processLinks, if_neg hmem, hbad]
      exact processLinks_seen_cons post classes seen bad.url hpost
  | cons a pre ih =>
    intro post classes seen bad hbad hpost
    simp only [List.cons_append, processLinks]
    split
    · exact ih post classes seen bad hbad hpost
    · split
      · exact ih post _ _ bad hbad hpost
      · exact ih post _ _ bad hbad hpost

/-- Claim C9: a scrape-level exception yields the empty list rather than
propagating; a parse error on an individual card only skips that card —
every other card (with a distinct URL) is still processed as before. The
concrete conjunct shows one failing card among two good ones. -/
theorem get_schedule_error_handling :
    (∀ snaps, get_schedule true snaps = []) ∧
    (∀ (pre post : List RenderedLink) (rest : List (List RenderedLink))
        (bad : RenderedLink),
        bad.fields = none →
        (∀ l ∈ post, l.url ≠ bad.url) →
        (∀ snap ∈ rest, ∀ l ∈ snap, l.url ≠ bad.url) →
        get_schedule false ((pre ++ bad :: post) :: rest) =
          get_schedule false ((pre ++ post) :: rest)) ∧
    get_schedule false
        [[⟨"a".toList, some ⟨"A".toList, "1:00 PM".toList, some 1, false⟩⟩,
          ⟨"b".toList, none⟩,
          ⟨"c".toList, some ⟨"C".toList, "3:00 PM".toList, some 2, false⟩⟩]] =
      [mkEntry ("a".toList) ⟨"A".toList, "1:00 PM".toList, some 1, false⟩,
       mkEntry ("c".toList) ⟨"C".toList, "3:00 PM".toList, some 2, false⟩] := by
  refine ⟨fun snaps => rfl, ?_, by decide⟩
  intro pre post rest bad hbad hpost hrest
  simp only [get_schedule, if_neg (Bool.false_ne_true), Bool.false_eq_true,
    if_false, scrollLoop]
  obtain ⟨hc, hs⟩ := processLinks_skip_none pre post [] [] bad hbad hpost
  rw [hc]
  have hequiv : ∀ v, v ∈ (processLinks [] [] (pre ++ bad :: post)).2 ↔
      v ∈ bad.url :: (processLinks [] [] (pre ++ post)).2 := by
    intro v
    rw [hs v, List.mem_cons]
  rw [scrollLoop_congr rest (processLinks [] [] (pre ++ post)).1
    (processLinks [] [] (pre ++ bad :: post)).2
    (bad.url :: (processLinks [] [] (pre ++ post)).2) hequiv]
  exact scrollLoop_seen_cons rest (processLinks [] [] (pre ++ post)).1
    (processLinks [] [] (pre ++ post)).2 bad.url hrest

/-- Witness for C9: dropping the failing middle card leaves the scrape of
the two good cards unchanged. -/
theorem get_schedule_error_handling_witness :
    get_schedule false
        [([⟨"a".toList, some ⟨"A".toList, "1:00 PM".toList, some 1, false⟩⟩] ++
          (⟨"b".toList, none⟩ : RenderedLink) ::
          [⟨"c".toList, some ⟨"C".toList, "3:00 PM".toList, some 2, false⟩⟩])] =
      get_schedule false
        [([⟨"a".toList, some ⟨"A".toList, "1:00 PM".toList, some 1, false⟩⟩] ++
          [⟨"c".toList, some ⟨"C".toList, "3:00 PM".toList, some 2, false⟩⟩])] :=
  get_schedule_error_handling.2.1
    [⟨"a".toList, some ⟨"A".toList, "1:00 PM".toList, some 1, false⟩⟩]
    [⟨"c".toList, some ⟨"C".toList, "3:00 PM".toList, some 2, false⟩⟩]
    [] ⟨"b".toList, none⟩ rfl (by decide) (by decide)

/-! ## Lemmas about the crontab merge -/

/-- `isPrefixB` decides the list-prefix relation. -/
theorem prefB_iff : ∀ a b : Str, isPrefixB a b = true ↔ a <+: b := by
  intro a
  induction a with
  | nil => intro b; simp [isPrefixB]
  | cons x xs ih =>
    intro b
    cases b with
    | nil => simp [isPrefixB]
    | cons y ys =>
      simp only [isPrefixB, Bool.and_eq_true, decide_eq_true_eq, List.cons_prefix_cons]
      exact and_congr Iff.rfl (ih ys)

/-- `isInfixB` decides Python's substring relation. -/
theorem infB_iff : ∀ a b : Str, isInfixB a b = true ↔ a <:+: b := by
  intro a b
  induction b with
  | nil => simp [isInfixB, List.isEmpty_iff]
  | cons y ys ih =>
    simp only [isInfixB, Bool.or_eq_true, prefB_iff, ih, List.infix_cons_iff]

/-- A prefix of a string is a substring of it. -/
theorem prefToInf {a b : Str} (h : a <+: b) : a <:+: b := by
  obtain ⟨t, ht⟩ := h
  exact ⟨[], t, by simpa using ht⟩

/-- A suffix of a string is a substring of it. -/
theorem sufToInf {a b : Str} (h : a <:+ b) : a <:+: b := by
  obtain ⟨t, ht⟩ := h
  exact ⟨t, [], by simpa using ht⟩

/-- Splitting never yields the empty list of lines. -/
theorem splitLines_ne_nil : ∀ s : Str, splitLines s ≠ [] := by
  intro s
  cases s with
  | nil => simp [splitLines, splitOnChar]
  | cons c t =>
    simp only [splitLines, splitOnChar]
    split
    · simp
    · split <;> simp

/-- One unfolding step of `splitLines` on a cons. -/
theorem splitLines_cons (c : Char) (t : Str) :
    splitLines (c :: t) =
      if c = NL then [] :: splitLines t
      else (c :: (splitLines t).headI) :: (splitLines t).tail := by
  simp only [splitLines, splitOnChar]
  split
  · rfl
  · cases hsp : splitOnChar NL t with
    | nil => exact absurd hsp (by simpa [splitLines] using splitLines_ne_nil t)
    | cons h r => simp

/-- A newline-free string splits into a single line. -/
theorem splitLines_single : ∀ l : Str, NL ∉ l → splitLines l = [l] := by
  intro l
  induction l with
  | nil => intro _; rfl
  | cons c cl ih =>
    intro hnl
    have hc : ¬ c = NL := fun h => hnl (h ▸ List.mem_cons_self c cl)
    rw [splitLines_cons, if_neg hc, ih (fun h => hnl (List.mem_cons_of_mem _ h))]
    simp

/-- Splitting after a newline-free first line. -/
theorem splitLines_append_cons :
    ∀ (l rest : Str), NL ∉ l → splitLines (l ++ NL :: rest) = l :: splitLines rest := by
  intro l
  induction l with
  | nil =>
    intro rest _
    rw [List.nil_append, splitLines_cons, if_pos rfl]
  | cons c cl ih =>
    intro rest hnl
    have hc : ¬ c = NL := fun h => hnl (h ▸ List.mem_cons_self c cl)
    rw [List.cons_append, splitLines_cons, if_neg hc,
      ih rest (fun h => hnl (List.mem_cons_of_mem _ h))]
    simp

/-- Joining undoes splitting. -/
theorem join_split : ∀ s : Str, joinLines (splitLines s) = s := by
  intro s
  induction s with
  | nil => rfl
  | cons c t ih =>
    rw [splitLines_cons]
    by_cases hc : c = NL
    · rw [if_pos hc, hc]
      cases hsp : splitLines t with
      | nil => exact absurd hsp (splitLines_ne_nil t)
      | cons h r =>
        rw [hsp] at ih
        simp only [joinLines]
        rw [ih]
        rfl
    · rw [if_neg hc]
      cases hsp : splitLines t with
      | nil => exact absurd hsp (splitLines_ne_nil t)
      | cons h r =>
        rw [hsp] at ih
        simp only [List.headI, List.tail_cons]
        cases r with
        | nil => simp only [joinLines] at ih ⊢; rw [ih]
        | cons h2 r2 =>
          simp only [joinLines] at ih ⊢
          rw [List.cons_append, ih]

/-- Splitting undoes joining, for non-empty newline-free line lists. -/
theorem split_join : ∀ ls : List Str, ls ≠ [] → (∀ l ∈ ls, NL ∉ l) →
    splitLines (joinLines ls) = ls := by
  intro ls
  induction ls with
  | nil => intro h _; exact absurd rfl h
  | cons l ls ih =>
    intro _ hnl
    cases ls with
    | nil =>
      simp only [joinLines]
      exact splitLines_single l (hnl l (List.mem_cons_self _ _))
    | cons l2 ls2 =>
      simp only [joinLines]
      rw [splitLines_append_cons l _ (hnl l (List.mem_cons_self _ _)),
        ih (by simp) (fun x hx => hnl x (List.mem_cons_of_mem _ hx))]

/-- Joining distributes over append, inserting one newline. -/
theorem joinLines_append : ∀ xs ys : List Str, xs ≠ [] → ys ≠ [] →
    joinLines (xs ++ ys) = joinLines xs ++ NL :: joinLines ys := by
  intro xs
  induction xs with
  | nil => intro ys h _; exact absurd rfl h
  | cons x xs ih =>
    intro ys _ hys
    cases xs with
    | nil =>
      cases ys with
      | nil => exact absurd rfl hys
      | cons y ys2 => simp [joinLines]
    | cons x2 xs2 =>
      have ihh := ih ys (by simp) hys
      calc joinLines ((x :: x2 :: xs2) ++ ys)
          = x ++ NL :: joinLines ((x2 :: xs2) ++ ys) := rfl
        _ = x ++ NL :: (joinLines (x2 :: xs2) ++ NL :: joinLines ys) := by rw [ihh]
        _ = (x ++ NL :: joinLines (x2 :: xs2)) ++ NL :: joinLines ys := by
            simp [List.append_assoc]
        _ = joinLines (x :: x2 :: xs2) ++ NL :: joinLines ys := rfl

/-- The head of a `dropWhile` result falsifies the predicate. -/
theorem dropWhile_head_false (p : Char → Bool) : ∀ (l : Str) (c : Char) (t : Str),
    l.dropWhile p = c :: t → p c = false := by
  intro l
  induction l with
  | nil => intro c t h; simp [List.dropWhile] at h
  | cons a l ih =>
    intro c t h
    by_cases hp : p a = true
    · rw [List.dropWhile_cons_of_pos hp] at h
      exact ih c t h
    · have hp2 : p a = false := by simpa using hp
      rw [List.dropWhile_cons_of_neg (by simp [hp2])] at h
      cases h
      exact hp2

/-- `rstrip` keeps an initial segment of the string. -/
theorem rstrip_take (s : Str) : ∃ t, s = rstrip s ++ t := by
  obtain ⟨t, ht⟩ := List.dropWhile_suffix (l := s.reverse) isWs
  refine ⟨t.reverse, ?_⟩
  have h2 := congrArg List.reverse ht
  simpa [rstrip] using h2.symm

/-- `lstrip` keeps a final segment of the string. -/
theorem lstrip_drop (s : Str) : ∃ t, s = t ++ lstrip s := by
  obtain ⟨t, ht⟩ := List.dropWhile_suffix (l := s) isWs
  exact ⟨t, ht.symm⟩

/-- Stripping yields a substring. -/
theorem pyStrip_inf (s : Str) : pyStrip s <:+: s := by
  obtain ⟨t1, h1⟩ := rstrip_take (lstrip s)
  obtain ⟨t2, h2⟩ := lstrip_drop s
  refine ⟨t2, t1, ?_⟩
  rw [List.append_assoc]
  unfold pyStrip
  rw [← h1, ← h2]

/-- A non-empty stripped string starts with a non-whitespace character. -/
theorem pyStrip_head (s : Str) (h : pyStrip s ≠ []) :
    ∃ c t, pyStrip s = c :: t ∧ isWs c = false := by
  cases hps : pyStrip s with
  | nil => exact absurd hps h
  | cons c t =>
    refine ⟨c, t, rfl, ?_⟩
    obtain ⟨t1, h1⟩ := rstrip_take (lstrip s)
    simp only [pyStrip] at hps
    rw [hps] at h1
    exact dropWhile_head_false isWs s c (t ++ t1)
      (by simpa [lstrip, List.cons_append] using h1)

/-- A non-empty stripped string ends with a non-whitespace character. -/
theorem pyStrip_last (s : Str) (h : pyStrip s ≠ []) :
    ∃ u d, pyStrip s = u ++ [d] ∧ isWs d = false := by
  cases hz : (lstrip s).reverse.dropWhile isWs with
  | nil =>
    exfalso
    apply h
    simp only [pyStrip, rstrip, hz, List.reverse_nil]
  | cons d z =>
    refine ⟨z.reverse, d, ?_, dropWhile_head_false isWs (lstrip s).reverse d z hz⟩
    simp only [pyStrip, rstrip, hz, List.reverse_cons]

/-- Stripping a string that starts and ends in non-whitespace characters
and carries one extra trailing newline recovers the string. -/
theorem pyStrip_wrap (s : Str) (c : Char) (t u : Str) (d : Char)
    (hhead : s = c :: t) (hc : isWs c = false)
    (hlast : s = u ++ [d]) (hd : isWs d = false) :
    pyStrip (s ++ [NL]) = s := by
  have hl : lstrip (s ++ [NL]) = s ++ [NL] := by
    rw [hhead]
    show List.dropWhile isWs (c :: (t ++ [NL])) = c :: (t ++ [NL])
    rw [List.dropWhile_cons_of_neg (by simp [hc])]
  have hrev : (s ++ [NL]).reverse = NL :: s.reverse := by simp
  have hdw : List.dropWhile isWs (NL :: s.reverse) = s.reverse := by
    rw [List.dropWhile_cons_of_pos (by decide), hlast]
    have h3 : ((u ++ [d]) : Str).reverse = d :: u.reverse := by simp
    rw [h3, List.dropWhile_cons_of_neg (by simp [hd])]
  show rstrip (lstrip (s ++ [NL])) = s
  rw [hl]
  show ((s ++ [NL]).reverse.dropWhile isWs).reverse = s
  rw [hrev, hdw, List.reverse_reverse]

/-- `dropWhile` removes only predicate-satisfying elements. -/
theorem filter_dropWhile (p : Char → Bool) : ∀ l : Str,
    (l.dropWhile p).filter (fun a => !p a) = l.filter (fun a => !p a) := by
  intro l
  induction l with
  | nil => rfl
  | cons a l ih =>
    by_cases hp : p a = true
    · rw [List.dropWhile_cons_of_pos hp, ih]
      simp [List.filter_cons, hp]
    · have hp2 : p a = false := by simpa using hp
      rw [List.dropWhile_cons_of_neg (by simp [hp2])]

/-- Stripping preserves the non-whitespace characters. -/
theorem pyStrip_filter (s : Str) :
    (pyStrip s).filter (fun c => !isWs c) = s.filter (fun c => !isWs c) := by
  show ((((s.dropWhile isWs).reverse.dropWhile isWs).reverse).filter fun c => !isWs c) =
    s.filter fun c => !isWs c
  rw [List.filter_reverse, filter_dropWhile, List.filter_reverse, List.reverse_reverse,
    filter_dropWhile]

/-- A string containing a non-whitespace character strips to a non-empty
string. -/
theorem pyStrip_ne_nil (l : Str) (d : Char) (hd : isWs d = false) (hmem : d ∈ l) :
    pyStrip l ≠ [] := by
  intro hps
  have hf := pyStrip_filter l
  rw [hps] at hf
  have hdmem : d ∈ l.filter (fun c => !isWs c) :=
    List.mem_filter.mpr ⟨hmem, by simp [hd]⟩
  rw [← hf] at hdmem
  simp at hdmem

/-- The head line of a split is an initial segment of the string. -/
theorem splitLines_head_pref : ∀ (s : Str) (h : Str) (t : List Str),
    splitLines s = h :: t → h <+: s := by
  intro s
  induction s with
  | nil =>
    intro h t hsp
    simp only [splitLines, splitOnChar] at hsp
    cases hsp
    exact ⟨[], rfl⟩
  | cons c s ih =>
    intro h t hsp
    rw [splitLines_cons] at hsp
    by_cases hc : c = NL
    · rw [if_pos hc] at hsp
      cases hsp
      exact ⟨c :: s, rfl⟩
    · rw [if_neg hc] at hsp
      cases hsp2 : splitLines s with
      | nil => exact absurd hsp2 (splitLines_ne_nil s)
      | cons h2 t2 =>
        rw [hsp2] at hsp
        simp only [List.headI, List.tail_cons] at hsp
        injection hsp with hh ht
        subst hh
        exact List.cons_prefix_cons.mpr ⟨rfl, ih h2 t2 hsp2⟩

/-- Every line of a split is newline-free. -/
theorem splitLines_no_nl : ∀ (s : Str) (l : Str), l ∈ splitLines s → NL ∉ l := by
  intro s
  induction s with
  | nil =>
    intro l hl
    simp only [splitLines, splitOnChar, List.mem_singleton] at hl
    simp [hl]
  | cons c s ih =>
    intro l hl
    rw [splitLines_cons] at hl
    by_cases hc : c = NL
    · rw [if_pos hc] at hl
      rcases List.mem_cons.mp hl with rfl | hl
      · simp
      · exact ih l hl
    · rw [if_neg hc] at hl
      cases hsp : splitLines s with
      | nil => exact absurd hsp (splitLines_ne_nil s)
      | cons h2 t2 =>
        rw [hsp] at hl
        simp only [List.headI, List.tail_cons] at hl
        rcases List.mem_cons.mp hl with rfl | hl
        · intro hmem
          rcases List.mem_cons.mp hmem with heq | hmem2
          · exact hc heq.symm
          · exact ih h2 (by rw [hsp]; exact List.mem_cons_self _ _) hmem2
        · exact ih l (by rw [hsp]; exact List.mem_cons_of_mem _ hl)

/-- Every line of a split is a substring of the string. -/
theorem splitLines_mem_inf : ∀ (s : Str) (l : Str), l ∈ splitLines s → l <:+: s := by
  intro s
  induction s with
  | nil =>
    intro l hl
    simp only [splitLines, splitOnChar, List.mem_singleton] at hl
    simp [hl]
  | cons c s ih =>
    intro l hl
    rw [splitLines_cons] at hl
    by_cases hc : c = NL
    · rw [if_pos hc] at hl
      rcases List.mem_cons.mp hl with rfl | hl
      · simp
      · exact List.infix_cons (ih l hl)
    · rw [if_neg hc] at hl
      cases hsp : splitLines s with
      | nil => exact absurd hsp (splitLines_ne_nil s)
      | cons h2 t2 =>
        rw [hsp] at hl
        simp only [List.headI, List.tail_cons] at hl
        rcases List.mem_cons.mp hl with rfl | hl
        · exact prefToInf (List.cons_prefix_cons.mpr ⟨rfl, splitLines_head_pref s h2 t2 hsp⟩)
        · exact List.infix_cons (ih l (by rw [hsp]; exact List.mem_cons_of_mem _ hl))

/-- Splitting a string ending in a non-newline character puts that
character at the end of the final line. -/
theorem splitLines_concat_ne : ∀ (s : Str) (c : Char), ¬ c = NL →
    ∃ init l, splitLines (s ++ [c]) = init ++ [l ++ [c]] := by
  intro s
  induction s with
  | nil =>
    intro c hc
    refine ⟨[], [], ?_⟩
    rw [List.nil_append, splitLines_cons, if_neg hc]
    simp [splitLines, splitOnChar]
  | cons a s ih =>
    intro c hc
    obtain ⟨init, l, hil⟩ := ih c hc
    by_cases ha : a = NL
    · refine ⟨[] :: init, l, ?_⟩
      rw [List.cons_append, splitLines_cons, if_pos ha, hil]
      rfl
    · rw [List.cons_append, splitLines_cons, if_neg ha, hil]
      cases init with
      | nil => exact ⟨[], a :: l, by simp⟩
      | cons i0 irest => exact ⟨(a :: i0) :: irest, l, by simp⟩

/-- `lastContaining` over an append: the second part wins when it has a
hit, shifted by the first part's length. -/
theorem lastContaining_append (m : Str) : ∀ xs ys : List Str,
    lastContaining m (xs ++ ys) =
      match lastContaining m ys with
      | some i => some (xs.length + i)
      | none => lastContaining m xs := by
  intro xs ys
  induction xs with
  | nil =>
    cases hys : lastContaining m ys <;> simp [lastContaining, hys]
  | cons x xs ih =>
    show (match lastContaining m (xs ++ ys) with
        | some i => some (i + 1)
        | none => if isInfixB m x = true then some 0 else none) =
      (match lastContaining m ys with
       | some i => some ((x :: xs).length + i)
       | none => lastContaining m (x :: xs))
    rw [ih]
    cases hys : lastContaining m ys with
    | some i =>
      show some (xs.length + i + 1) = some ((x :: xs).length + i)
      simp only [List.length_cons]
      congr 1
      omega
    | none =>
      show (match lastContaining m xs with
        | some i => some (i + 1)
        | none => if isInfixB m x = true then some 0 else none) =
          lastContaining m (x :: xs)
      rfl

/-- `lastContaining` misses when no line contains the needle. -/
theorem lastContaining_eq_none (m : Str) : ∀ ls : List Str,
    (∀ l ∈ ls, isInfixB m l = false) → lastContaining m ls = none := by
  intro ls
  induction ls with
  | nil => intro _; rfl
  | cons x xs ih =>
    intro h
    simp only [lastContaining, ih (fun l hl => h l (List.mem_cons_of_mem _ hl))]
    simp [h x (List.mem_cons_self _ _)]

/-- No line of a marker-free existing text contains the marker. -/
theorem lines_no_marker {m E : Str} (hm : isInfixB m E = false) :
    ∀ l ∈ splitLines (pyStrip E), isInfixB m l = false := by
  intro l hl
  by_contra hcon
  have htrue : isInfixB m l = true := by simpa using hcon
  have h1 : m <:+: l := (infB_iff m l).mp htrue
  have h2 : l <:+: pyStrip E := splitLines_mem_inf _ l hl
  have h3 : pyStrip E <:+: E := pyStrip_inf E
  have : isInfixB m E = true := (infB_iff m E).mpr ((h1.trans h2).trans h3)
  rw [hm] at this
  exact Bool.false_ne_true this

/-- `merge_crontabs` on a marker-free existing text: nothing is deleted,
a separator blank line is added exactly when the stripped text is
non-empty, and the sentinel-wrapped stripped block is appended. -/
theorem merge_no_marker (E B : Str)
    (h1 : isInfixB markerStart E = false) (h2 : isInfixB markerEnd E = false) :
    merge_crontabs E B =
      joinLines ((if pyStrip E = [] then [] else splitLines (pyStrip E) ++ [[]]) ++
        [markerStart, pyStrip B, markerEnd]) ++ [NL] := by
  by_cases hE : pyStrip E = []
  · simp [merge_crontabs, hE, lastContaining]
  · obtain ⟨u, d, hud, hd⟩ := pyStrip_last E hE
    have hdNL : ¬ d = NL := by
      intro hdn
      subst hdn
      exact absurd hd (by decide)
    obtain ⟨init, l, hsp⟩ : ∃ init l, splitLines (pyStrip E) = init ++ [l ++ [d]] := by
      rw [hud]
      exact splitLines_concat_ne u d hdNL
    have hlast : (splitLines (pyStrip E)).getLast? = some (l ++ [d]) := by
      rw [hsp, List.getLast?_concat]
    have hlastne : pyStrip (l ++ [d]) ≠ [] := pyStrip_ne_nil (l ++ [d]) d hd (by simp)
    have hs0 : lastContaining markerStart (splitLines (pyStrip E)) = none :=
      lastContaining_eq_none _ _ (lines_no_marker h1)
    have he0 : lastContaining markerEnd (splitLines (pyStrip E)) = none :=
      lastContaining_eq_none _ _ (lines_no_marker h2)
    simp only [merge_crontabs, if_neg hE, hs0, he0, hlast, if_pos hlastne]

/-- Joining a line list whose first line is non-empty starts with that
line's first character. -/
theorem joinLines_head_shape : ∀ (c : Char) (l0 : Str) (ps : List Str),
    ∃ t, joinLines ((c :: l0) :: ps) = c :: t := by
  intro c l0 ps
  cases ps with
  | nil => exact ⟨l0, rfl⟩
  | cons p pp => exact ⟨l0 ++ NL :: joinLines (p :: pp), rfl⟩

/-- The sentinel block joins the same whether its body is one element or
split into its lines. -/
theorem joinLines_block_flat (pB : Str) :
    joinLines ([markerStart] ++ splitLines pB ++ [markerEnd]) =
      joinLines [markerStart, pB, markerEnd] := by
  rw [joinLines_append ([markerStart] ++ splitLines pB) [markerEnd]
      (by simp) (by simp),
    joinLines_append [markerStart] (splitLines pB) (by simp) (splitLines_ne_nil _),
    join_split]
  simp [joinLines, List.append_assoc]

/-- Prepending context lines to the block keeps the two join forms
equal. -/
theorem joinLines_block (pre : List Str) (pB : Str) :
    joinLines (pre ++ [markerStart, pB, markerEnd]) =
      joinLines (pre ++ [markerStart] ++ splitLines pB ++ [markerEnd]) := by
  cases hpre : pre with
  | nil =>
    simp only [List.nil_append]
    exact (joinLines_block_flat pB).symm
  | cons p ps =>
    rw [← hpre]
    have hne : pre ≠ [] := by rw [hpre]; simp
    rw [List.append_assoc (pre ++ [markerStart]) (splitLines pB) [markerEnd],
      List.append_assoc pre [markerStart] (splitLines pB ++ [markerEnd]),
      joinLines_append pre ([markerStart] ++ (splitLines pB ++ [markerEnd]))
        hne (by simp),
      joinLines_append pre [markerStart, pB, markerEnd] hne (by simp),
      ← List.append_assoc [markerStart] (splitLines pB) [markerEnd],
      joinLines_block_flat pB]

/-- The structural second pass of the idempotence argument: re-merging the
canonical output of a marker-free merge reproduces it, given the line
list `pre` before the block satisfies the invariants the first merge
establishes. -/
theorem merge_second_pass (B : Str) (pre : List Str)
    (hB1 : isInfixB markerStart B = false) (hB2 : isInfixB markerEnd B = false)
    (hpre_nl : ∀ l ∈ pre, NL ∉ l)
    (hpre_S : ∀ l ∈ pre, isInfixB markerStart l = false)
    (hpre_Me : ∀ l ∈ pre, isInfixB markerEnd l = false)
    (hpre_last : pre = [] ∨ ∃ ps, pre = ps ++ [[]])
    (hpre_head : pre = [] ∨ ∃ c l0 ps, pre = (c :: l0) :: ps ∧ isWs c = false) :
    merge_crontabs (joinLines (pre ++ [markerStart, pyStrip B, markerEnd]) ++ [NL]) B =
      joinLines (pre ++ [markerStart, pyStrip B, markerEnd]) ++ [NL] := by
  rw [joinLines_block pre (pyStrip B)]
  set bL := splitLines (pyStrip B) with hbL
  set ls := pre ++ [markerStart] ++ bL ++ [markerEnd] with hls
  have hls_ne : ls ≠ [] := by
    rw [hls]
    simp
  have hlsK : ∀ l ∈ ls, NL ∉ l := by
    intro l hl
    rw [hls] at hl
    simp only [List.mem_append, List.mem_singleton] at hl
    rcases hl with ((hl | rfl) | hl) | rfl
    · exact hpre_nl l hl
    · decide
    · rw [hbL] at hl
      exact splitLines_no_nl (pyStrip B) l hl
    · decide
  have hbL_S : ∀ l ∈ bL, isInfixB markerStart l = false := by
    rw [hbL]; exact lines_no_marker hB1
  have hbL_Me : ∀ l ∈ bL, isInfixB markerEnd l = false := by
    rw [hbL]; exact lines_no_marker hB2
  obtain ⟨c0, t0, hcore_head, hc0⟩ : ∃ c t, joinLines ls = c :: t ∧ isWs c = false := by
    rcases hpre_head with hp | ⟨c, l0, ps, hpe, hwc⟩
    · have hlseq : ls = ('#' :: " BEGIN ALTEA BOOKING".toList) :: (bL ++ [markerEnd]) := by
        rw [hls, hp, List.nil_append, List.append_assoc]
        rfl
      obtain ⟨t, ht⟩ := joinLines_head_shape '#' (" BEGIN ALTEA BOOKING".toList)
        (bL ++ [markerEnd])
      refine ⟨'#', t, ?_, by decide⟩
      rw [hlseq]
      exact ht
    · have hlseq : ls = (c :: l0) :: (ps ++ [markerStart] ++ bL ++ [markerEnd]) := by
        rw [hls, hpe]
        simp [List.append_assoc]
      obtain ⟨t, ht⟩ := joinLines_head_shape c l0 (ps ++ [markerStart] ++ bL ++ [markerEnd])
      refine ⟨c, t, ?_, hwc⟩
      rw [hlseq]
      exact ht
  obtain ⟨u0, hcore_last⟩ : ∃ u, joinLines ls = u ++ ['G'] := by
    have hX : (pre ++ [markerStart] ++ bL) ≠ [] := by simp
    have hj := joinLines_append (pre ++ [markerStart] ++ bL) [markerEnd] hX (by simp)
    refine ⟨joinLines (pre ++ [markerStart] ++ bL) ++ NL :: "# END ALTEA BOOKIN".toList, ?_⟩
    rw [hls, hj]
    have hme : joinLines [markerEnd] = "# END ALTEA BOOKIN".toList ++ ['G'] := by decide
    rw [hme]
    simp
  have hcore_ne : joinLines ls ≠ [] := by rw [hcore_head]; simp
  have hstripR : pyStrip (joinLines ls ++ [NL]) = joinLines ls :=
    pyStrip_wrap (joinLines ls) c0 t0 u0 'G' hcore_head hc0 hcore_last (by decide)
  have hsplitR : splitLines (joinLines ls) = ls := split_join ls hls_ne hlsK
  have hfindS : lastContaining markerStart ls = some pre.length := by
    rw [hls, List.append_assoc (pre ++ [markerStart]) bL [markerEnd],
      lastContaining_append markerStart (pre ++ [markerStart]) (bL ++ [markerEnd])]
    have hnone : lastContaining markerStart (bL ++ [markerEnd]) = none := by
      rw [lastContaining_append markerStart bL [markerEnd]]
      have h1 : lastContaining markerStart [markerEnd] = none := by decide
      rw [h1]
      exact lastContaining_eq_none _ _ hbL_S
    rw [hnone, lastContaining_append markerStart pre [markerStart]]
    have h2 : lastContaining markerStart [markerStart] = some 0 := by decide
    rw [h2]
    simp
  have hfindMe : lastContaining markerEnd ls = some (pre.length + 1 + bL.length) := by
    rw [hls, lastContaining_append markerEnd (pre ++ [markerStart] ++ bL) [markerEnd]]
    have h1 : lastContaining markerEnd [markerEnd] = some 0 := by decide
    rw [h1]
    simp only [List.length_append, List.length_cons, List.length_nil]
    congr 1
  have hlen : ls.length = pre.length + 1 + bL.length + 1 := by
    rw [hls]
    simp only [List.length_append, List.length_cons, List.length_nil]
  have htake : ls.take pre.length = pre := by
    rw [hls, List.append_assoc (pre ++ [markerStart]) bL [markerEnd],
      List.append_assoc pre [markerStart] (bL ++ [markerEnd])]
    exact List.take_left pre ([markerStart] ++ (bL ++ [markerEnd]))
  have hmax : max pre.length (pre.length + 1 + bL.length + 1) =
      pre.length + 1 + bL.length + 1 := by omega
  have hdrop : ls.drop (max pre.length (pre.length + 1 + bL.length + 1)) = [] := by
    rw [hmax]
    exact List.drop_eq_nil_of_le (by rw [hlen])
  simp only [merge_crontabs, hstripR, if_neg hcore_ne, hsplitR, hfindS, hfindMe,
    htake, hdrop, List.append_nil]
  rcases hpre_last with rfl | ⟨ps, rfl⟩
  · simp only [List.getLast?_nil, List.nil_append]
    have hfin : joinLines ls = joinLines [markerStart, pyStrip B, markerEnd] := by
      rw [hls, hbL, List.nil_append]
      exact joinLines_block_flat (pyStrip B)
    rw [hfin]
  · simp only [List.getLast?_concat]
    have hstripnil : ¬ pyStrip ([] : Str) ≠ [] := by simp [pyStrip, lstrip, rstrip]
    rw [if_neg hstripnil]
    have hfin : joinLines ls = joinLines ((ps ++ [[]]) ++ [markerStart, pyStrip B, markerEnd]) := by
      rw [hls, hbL]
      exact (joinLines_block (ps ++ [[]]) (pyStrip B)).symm
    rw [hfin]

/-- Claim C6 (amended): merging the same block twice equals merging it
once, for every existing crontab text and block in which neither sentinel
marker occurs as a substring. -/
theorem merge_crontabs_idem :
    ∀ E B : Str,
      isInfixB markerStart E = false → isInfixB markerEnd E = false →
      isInfixB markerStart B = false → isInfixB markerEnd B = false →
      merge_crontabs (merge_crontabs E B) B = merge_crontabs E B := by
  intro E B hE1 hE2 hB1 hB2
  have hR := merge_no_marker E B hE1 hE2
  by_cases hE : pyStrip E = []
  · rw [hR, if_pos hE]
    exact merge_second_pass B [] hB1 hB2 (by simp) (by simp) (by simp)
      (Or.inl rfl) (Or.inl rfl)
  · rw [hR, if_neg hE]
    have hmemchar : ∀ l ∈ splitLines (pyStrip E) ++ [[]],
        l ∈ splitLines (pyStrip E) ∨ l = [] := by
      intro l hl
      rcases List.mem_append.mp hl with h | h
      · exact Or.inl h
      · exact Or.inr (List.mem_singleton.mp h)
    have h_nl : ∀ l ∈ splitLines (pyStrip E) ++ [[]], NL ∉ l := by
      intro l hl
      rcases hmemchar l hl with h | rfl
      · exact splitLines_no_nl _ l h
      · simp
    have h_S : ∀ l ∈ splitLines (pyStrip E) ++ [[]], isInfixB markerStart l = false := by
      intro l hl
      rcases hmemchar l hl with h | rfl
      · exact lines_no_marker hE1 l h
      · decide
    have h_Me : ∀ l ∈ splitLines (pyStrip E) ++ [[]], isInfixB markerEnd l = false := by
      intro l hl
      rcases hmemchar l hl with h | rfl
      · exact lines_no_marker hE2 l h
      · decide
    have h_last : splitLines (pyStrip E) ++ [[]] = [] ∨
        ∃ ps, splitLines (pyStrip E) ++ [[]] = ps ++ [[]] :=
      Or.inr ⟨splitLines (pyStrip E), rfl⟩
    have h_head : splitLines (pyStrip E) ++ [[]] = [] ∨
        ∃ c l0 ps2, splitLines (pyStrip E) ++ [[]] = (c :: l0) :: ps2 ∧ isWs c = false := by
      right
      obtain ⟨c, t, hct, hc⟩ := pyStrip_head E hE
      have h1 : splitLines (pyStrip E) =
          (c :: (splitLines t).headI) :: (splitLines t).tail := by
        rw [hct, splitLines_cons, if_neg ?_]
        intro hcn
        subst hcn
        exact absurd hc (by decide)
      refine ⟨c, (splitLines t).headI, (splitLines t).tail ++ [[]], ?_, hc⟩
      rw [h1]
      rfl
    exact merge_second_pass B (splitLines (pyStrip E) ++ [[]]) hB1 hB2
      h_nl h_S h_Me h_last h_head

/-- Counterexample to claim C6 as stated: with an existing crontab whose
sentinel block is followed by a blank line, the first merge leaves a
leading blank line which the second merge's strip removes, so merging
twice differs from merging once (the block itself contains no marker). -/
theorem merge_crontabs_idem_counterexample :
    merge_crontabs
        ("# BEGIN ALTEA BOOKING\n# END ALTEA BOOKING\n\nfoo".toList) ("new".toList) =
      ("\nfoo\n\n# BEGIN ALTEA BOOKING\nnew\n# END ALTEA BOOKING\n".toList) ∧
    merge_crontabs
        (merge_crontabs ("# BEGIN ALTEA BOOKING\n# END ALTEA BOOKING\n\nfoo".toList)
          ("new".toList)) ("new".toList) =
      ("foo\n\n# BEGIN ALTEA BOOKING\nnew\n# END ALTEA BOOKING\n".toList) ∧
    merge_crontabs
        (merge_crontabs ("# BEGIN ALTEA BOOKING\n# END ALTEA BOOKING\n\nfoo".toList)
          ("new".toList)) ("new".toList) ≠
      merge_crontabs
        ("# BEGIN ALTEA BOOKING\n# END ALTEA BOOKING\n\nfoo".toList) ("new".toList) := by
  refine ⟨by decide, by decide, by decide⟩

/-- Witness for C6 on a marker-free crontab. -/
theorem merge_crontabs_idem_witness :
    merge_crontabs (merge_crontabs ("foo".toList) ("new".toList)) ("new".toList) =
      merge_crontabs ("foo".toList) ("new".toList) :=
  merge_crontabs_idem ("foo".toList) ("new".toList)
    (by decide) (by decide) (by decide) (by decide)

/-- Flat-string form of the marker-free merge: the stripped existing text
verbatim, one separating blank line exactly when it is non-empty, then
the sentinel-wrapped stripped block and a trailing newline. -/
theorem merge_no_marker_flat (E B : Str)
    (h1 : isInfixB markerStart E = false) (h2 : isInfixB markerEnd E = false) :
    merge_crontabs E B =
      (if pyStrip E = [] then [] else pyStrip E ++ [NL, NL]) ++
        markerStart ++ NL :: pyStrip B ++ NL :: markerEnd ++ [NL] := by
  rw [merge_no_marker E B h1 h2]
  by_cases hE : pyStrip E = []
  · rw [if_pos hE, if_pos hE]
    simp [joinLines, List.append_assoc]
  · rw [if_neg hE, if_neg hE]
    rw [joinLines_append (splitLines (pyStrip E) ++ [[]])
      [markerStart, pyStrip B, markerEnd] (by simp) (by simp)]
    rw [joinLines_append (splitLines (pyStrip E)) [[]] (splitLines_ne_nil _) (by simp)]
    rw [join_split]
    simp [joinLines, List.append_assoc]

/-- Claim C7 (amended): `merge_crontabs` works on the whitespace-stripped
existing text — its lines outside the deleted sentinel slice are kept
verbatim and in order, and when neither marker occurs the block is
appended after exactly one separating blank line when the stripped text
is non-empty (leading/trailing blank lines of the original are not
preserved). -/
theorem merge_crontabs_frame :
    (∀ E B : Str, isInfixB markerStart E = false → isInfixB markerEnd E = false →
      merge_crontabs E B =
        (if pyStrip E = [] then [] else pyStrip E ++ [NL, NL]) ++
          markerStart ++ NL :: pyStrip B ++ NL :: markerEnd ++ [NL]) ∧
    (∀ (E B : Str) (i j : Nat), pyStrip E ≠ [] →
      lastContaining markerStart (splitLines (pyStrip E)) = some i →
      lastContaining markerEnd (splitLines (pyStrip E)) = some j →
      ∃ mid, (mid = [] ∨ mid = [[]]) ∧
        merge_crontabs E B =
          joinLines ((splitLines (pyStrip E)).take i ++
            (splitLines (pyStrip E)).drop (max i (j + 1)) ++ mid ++
            [markerStart, pyStrip B, markerEnd]) ++ [NL]) := by
  refine ⟨merge_no_marker_flat, ?_⟩
  intro E B i j hE hi hj
  simp only [merge_crontabs, if_neg hE, hi, hj]
  cases hgl : ((splitLines (pyStrip E)).take i ++
      (splitLines (pyStrip E)).drop (max i (j + 1))).getLast? with
  | none =>
    exact ⟨[], Or.inl rfl, by simp [List.append_assoc]⟩
  | some l =>
    by_cases hpl : pyStrip l ≠ []
    · exact ⟨[[]], Or.inr rfl, by simp only [if_pos hpl]⟩
    · exact ⟨[], Or.inl rfl, by simp only [if_neg hpl]; simp [List.append_assoc]⟩

/-- Counterexample to claim C7 as stated: the line " x" of the (marker-free)
existing text is not preserved verbatim — the merge strips the whole text
first, so the output's first line is "x". -/
theorem merge_crontabs_frame_counterexample :
    (" x".toList ∈ splitLines (" x".toList)) ∧
    (" x".toList ∉ splitLines (merge_crontabs (" x".toList) ("new".toList))) ∧
    merge_crontabs (" x".toList) ("new".toList) =
      ("x\n\n# BEGIN ALTEA BOOKING\nnew\n# END ALTEA BOOKING\n".toList) := by
  refine ⟨by decide, by decide, by decide⟩

/-- Witness for C7: the append case on a marker-free one-line crontab,
and the replace case on a crontab holding an installed block. -/
theorem merge_crontabs_frame_witness :
    (merge_crontabs ("x".toList) ("new".toList) =
      (if pyStrip ("x".toList) = [] then [] else pyStrip ("x".toList) ++ [NL, NL]) ++
        markerStart ++ NL :: pyStrip ("new".toList) ++ NL :: markerEnd ++ [NL]) ∧
    (∃ mid, (mid = [] ∨ mid = [[]]) ∧
      merge_crontabs
          ("keep1\n# BEGIN ALTEA BOOKING\nold\n# END ALTEA BOOKING\nkeep2".toList)
          ("new".toList) =
        joinLines ((splitLines (pyStrip
            ("keep1\n# BEGIN ALTEA BOOKING\nold\n# END ALTEA BOOKING\nkeep2".toList))).take 1 ++
          (splitLines (pyStrip
            ("keep1\n# BEGIN ALTEA BOOKING\nold\n# END ALTEA BOOKING\nkeep2".toList))).drop
            (max 1 (3 + 1)) ++ mid ++
          [markerStart, pyStrip ("new".toList), markerEnd]) ++ [NL]) :=
  ⟨merge_crontabs_frame.1 ("x".toList) ("new".toList) (by decide) (by decide),
   merge_crontabs_frame.2
     ("keep1\n# BEGIN ALTEA BOOKING\nold\n# END ALTEA BOOKING\nkeep2".toList)
     ("new".toList) 1 3 (by decide) (by decide) (by decide)⟩
